import Mathlib

/-!
Verification of the binary-morphology and distance-transform layer of
`scipy/ndimage/morphology.py` (the Python orchestration of SciPy's ndimage
morphology module).

Arrays are embedded as functions on a finite coordinate box: an N-dimensional
array of shape `dims : Fin d → ℕ` is a function `(∀ i, Fin (dims i)) → α`.
The C kernels of `_nd_image` that are not part of the repository
(`binary_erosion`, `binary_erosion2`, `distance_transform_bf`,
`distance_transform_op`, `euclidean_feature_transform`) are either modelled
from the specification (the binary erosion kernel and the coordinate-worklist
propagation, whose contracts the spec states precisely) or kept as abstract
function parameters (the per-metric scans of the distance transforms), while
everything the Python file itself does — validation, dispatch, buffer
handling, boundary extraction, reversal and gathering — is translated
faithfully from the source.
-/

set_option synthInstance.maxSize 2000

namespace NdMorph

/-- In-bounds coordinates of an array with extents `dims` (one `Fin` per axis). -/
abbrev Coord {d : ℕ} (dims : Fin d → ℕ) : Type := ∀ i : Fin d, Fin (dims i)

/-- The integer coordinate of an in-bounds voxel. -/
def toZ {d : ℕ} {dims : Fin d → ℕ} (p : Coord dims) : Fin d → ℤ :=
  fun i => (p i : ℤ)

/-- `c` lies inside the box `[0, dims i)` on every axis. -/
def inB {d : ℕ} (dims : Fin d → ℕ) (c : Fin d → ℤ) : Prop :=
  ∀ i, 0 ≤ c i ∧ c i < (dims i : ℤ)

instance {d : ℕ} (dims : Fin d → ℕ) : DecidablePred (inB dims) := fun _ =>
  inferInstanceAs (Decidable (∀ _, _ ∧ _))

/-- Convert an integer coordinate known to be in bounds into a `Coord`. -/
def toIdx {d : ℕ} {dims : Fin d → ℕ} (c : Fin d → ℤ) (h : inB dims c) : Coord dims :=
  fun i => ⟨(c i).toNat, by
    have h1 := (h i).1
    have h2 := (h i).2
    omega⟩

/-- Effective value of array `A` at integer coordinate `c`: the stored value in
bounds, the configured border value outside (the uniform border policy of the
binary morphology kernels). -/
def effVal {d : ℕ} {dims : Fin d → ℕ} (A : Coord dims → Bool) (bv : Bool)
    (c : Fin d → ℤ) : Bool :=
  if h : inB dims c then A (toIdx c h) else bv

/-- The integer coordinate probed by structure cell `k` when the kernel is
placed at output voxel `p`: `p + k - shape//2 - origin` per axis (the filter
center sits at `shape//2 + origin` inside the structuring element). -/
def probe {d : ℕ} {dims : Fin d → ℕ} (shape : Fin d → ℕ) (origin : Fin d → ℤ)
    (p : Coord dims) (k : Coord shape) : Fin d → ℤ :=
  fun i => (p i : ℤ) + (k i : ℤ) - ((shape i / 2 : ℕ) : ℤ) - origin i

/-- Modelled from the spec: the single-voxel result of the missing C kernel
`_nd_image.binary_erosion`.  With `invert = false` (erosion) the voxel is on
iff every "on" cell of the structuring element sees an effective `true`;
with `invert = true` (dilation, obtained in the source by passing the
reflected structure, the adjusted origin and `invert=1`) the voxel is on iff
some "on" cell sees an effective `true`. -/
def kernelVal {d : ℕ} {dims shape : Fin d → ℕ} (invert : Bool)
    (S : Coord shape → Bool) (origin : Fin d → ℤ) (bv : Bool)
    (A : Coord dims → Bool) (p : Coord dims) : Bool :=
  if invert then
    decide (∃ k, S k = true ∧ effVal A bv (probe shape origin p k) = true)
  else
    decide (∀ k, S k = true → effVal A bv (probe shape origin p k) = true)

/-- Whether voxel `p` may be modified: `true` when no mask is given, the mask
value at `p` otherwise. -/
def maskVal {d : ℕ} {dims : Fin d → ℕ} (mask : Option (Coord dims → Bool))
    (p : Coord dims) : Bool :=
  match mask with
  | none => true
  | some m => m p

/-- One full pass of the (possibly masked) binary erosion/dilation kernel:
voxels where the mask is off copy the input value unchanged. -/
def step {d : ℕ} {dims shape : Fin d → ℕ} (invert : Bool)
    (S : Coord shape → Bool) (origin : Fin d → ℤ) (bv : Bool)
    (mask : Option (Coord dims → Bool)) (A : Coord dims → Bool) :
    Coord dims → Bool :=
  fun p => if maskVal mask p then kernelVal invert S origin bv A p else A p

/-- `_center_is_true`: the value of the structuring element at
`origin + shape // 2` per axis (`false` when that coordinate is out of
bounds). -/
def center_is_true {d : ℕ} {shape : Fin d → ℕ} (S : Coord shape → Bool)
    (origin : Fin d → ℤ) : Bool :=
  if h : inB shape (fun i => origin i + ((shape i / 2 : ℕ) : ℤ)) then
    S (toIdx _ h)
  else false

/-- Errors surfaced by the morphology / distance-transform entry points
(each constructor corresponds to one `raise` site of the source). -/
inductive MErr where
  | unsupportedType
  | emptyStructure
  | configError
  | invalidMetric
  | metricSize
deriving DecidableEq

/-- Result of an entry point: an error, or a value. -/
inductive Res (α : Type) where
  | err (e : MErr)
  | ok (a : α)
deriving DecidableEq

/-- Voxels of the output array that changed state in the last pass. -/
def diffSet {d : ℕ} {dims : Fin d → ℕ} (a b : Coord dims → Bool) :
    Finset (Coord dims) :=
  Finset.univ.filter (fun p => a p ≠ b p)

/-- Whether integer coordinate `c` is in bounds and its voxel belongs to the
worklist `W`. -/
def inW {d : ℕ} {dims : Fin d → ℕ} (W : Finset (Coord dims))
    (c : Fin d → ℤ) : Bool :=
  if h : inB dims c then decide (toIdx c h ∈ W) else false

/-- Modelled from the spec: the voxels reachable from the worklist through the
structuring element's neighbor offsets — exactly the voxels whose kernel value
can depend on a voxel of `W`, i.e. those having some "on" structure cell whose
probe lands in `W`. -/
def reach {d : ℕ} {dims shape : Fin d → ℕ} (S : Coord shape → Bool)
    (origin : Fin d → ℤ) (W : Finset (Coord dims)) : Finset (Coord dims) :=
  Finset.univ.filter
    (fun p => ∃ k, S k = true ∧ inW W (probe shape origin p k) = true)

/-- Modelled from the spec: the array after one propagation round — only
voxels reachable from the worklist are re-evaluated with the full kernel,
every other voxel keeps its value. -/
def wlArr {d : ℕ} {dims shape : Fin d → ℕ} (invert : Bool)
    (S : Coord shape → Bool) (origin : Fin d → ℤ) (bv : Bool)
    (mask : Option (Coord dims → Bool))
    (st : (Coord dims → Bool) × Finset (Coord dims)) : Coord dims → Bool :=
  fun p =>
    if p ∈ reach S origin st.2 then step invert S origin bv mask st.1 p
    else st.1 p

/-- Modelled from the spec: one propagation round of the missing C routine
`_nd_image.binary_erosion2`; the new worklist collects the re-evaluated
voxels that changed. -/
def wlStep {d : ℕ} {dims shape : Fin d → ℕ} (invert : Bool)
    (S : Coord shape → Bool) (origin : Fin d → ℤ) (bv : Bool)
    (mask : Option (Coord dims → Bool))
    (st : (Coord dims → Bool) × Finset (Coord dims)) :
    (Coord dims → Bool) × Finset (Coord dims) :=
  (wlArr invert S origin bv mask st,
    (reach S origin st.2).filter
      (fun p => wlArr invert S origin bv mask st p ≠ st.1 p))

/-- Modelled from the spec: worklist propagation run until the worklist
empties (the `iterations < 1` mode of `_nd_image.binary_erosion2`), with an
explicit fuel bound large enough for every terminating run. -/
def wlStab {d : ℕ} {dims shape : Fin d → ℕ} (invert : Bool)
    (S : Coord shape → Bool) (origin : Fin d → ℤ) (bv : Bool)
    (mask : Option (Coord dims → Bool)) :
    ℕ → (Coord dims → Bool) × Finset (Coord dims) →
      (Coord dims → Bool) × Finset (Coord dims)
  | 0, st => st
  | n + 1, st =>
    if st.2 = ∅ then st
    else wlStab invert S origin bv mask n (wlStep invert S origin bv mask st)

/-- The `iterations < 1` brute-force loop of `_binary_erosion`: apply the
kernel once, then keep applying it while the pass changed anything, with an
explicit fuel bound large enough for every terminating run. -/
def stabFuel {α : Type} [DecidableEq α] (f : α → α) : ℕ → α → α
  | 0, x => x
  | n + 1, x => if f x = x then f x else stabFuel f n (f x)

/-- Fuel bound used for the fixed-point loops: the number of distinct boolean
arrays of the given shape (a terminating run stabilizes within that many
passes). -/
def FUEL {d : ℕ} (dims : Fin d → ℕ) : ℕ :=
  Fintype.card (Coord dims → Bool)

/-- The output array computed by `_binary_erosion` once validation has
passed: a single kernel pass for `iterations == 1`, the coordinate-worklist
propagation when the center of the structuring element is on and brute force
was not requested (`iterations - 1` further rounds, or rounds until the
worklist empties when `iterations < 1`), and the ping-pong brute-force loop
otherwise (`iterations` full kernel passes, or passes until a pass changes
nothing when `iterations < 1`). -/
def erosion_result {d : ℕ} {dims shape : Fin d → ℕ}
    (S : Coord shape → Bool) (origin : Fin d → ℤ) (iterations : ℤ)
    (mask : Option (Coord dims → Bool)) (bv : Bool) (invert : Bool)
    (brute : Bool) (x : Coord dims → Bool) : Coord dims → Bool :=
  if iterations = 1 then step invert S origin bv mask x
  else if center_is_true S origin && !brute then
    if 1 ≤ iterations - 1 then
      ((wlStep invert S origin bv mask)^[(iterations - 1).toNat]
        (step invert S origin bv mask x,
          diffSet (step invert S origin bv mask x) x)).1
    else
      (wlStab invert S origin bv mask (FUEL dims)
        (step invert S origin bv mask x,
          diffSet (step invert S origin bv mask x) x)).1
  else
    if 1 ≤ iterations then (step invert S origin bv mask)^[iterations.toNat] x
    else stabFuel (step invert S origin bv mask) (FUEL dims) x

/-- `_binary_erosion`, the common dispatcher behind `binary_erosion` and
`binary_dilation`: validation (complex input, empty structuring element),
then the computation of `erosion_result`.  The returned pair is
`(return value, final contents of the output array)`: the first component is
`none` exactly when the caller supplied the output buffer
(`_ni_support._get_output` returns `None` as the function's return value in
that case). -/
def binary_erosion_core {d : ℕ} {dims shape : Fin d → ℕ} (cx : Bool)
    (S : Coord shape → Bool) (origin : Fin d → ℤ) (iterations : ℤ)
    (mask : Option (Coord dims → Bool)) (outProvided : Bool) (bv : Bool)
    (invert : Bool) (brute : Bool) (x : Coord dims → Bool) :
    Res (Option (Coord dims → Bool) × (Coord dims → Bool)) :=
  if cx then .err .unsupportedType
  else if (∏ i, shape i) = 0 then .err .emptyStructure
  else
    .ok (if outProvided then none
          else some (erosion_result S origin iterations mask bv invert brute x),
      erosion_result S origin iterations mask bv invert brute x)

/-- The structuring element reflected through its center
(`structure[::-1, ..., ::-1]`). -/
def reflectS {d : ℕ} {shape : Fin d → ℕ} (S : Coord shape → Bool) :
    Coord shape → Bool :=
  fun k => S (fun i => (k i).rev)

/-- The origin adjustment performed by `binary_dilation`: negate each entry
and subtract one more on axes of even length. -/
def adjOrigin {d : ℕ} (shape : Fin d → ℕ) (origin : Fin d → ℤ) : Fin d → ℤ :=
  fun i => if shape i % 2 = 0 then -origin i - 1 else -origin i

/-- `binary_dilation`: reflect the structuring element, adjust the origin and
run the erosion dispatcher with `invert = 1`. -/
def binary_dilation_core {d : ℕ} {dims shape : Fin d → ℕ} (cx : Bool)
    (S : Coord shape → Bool) (origin : Fin d → ℤ) (iterations : ℤ)
    (mask : Option (Coord dims → Bool)) (outProvided : Bool) (bv : Bool)
    (brute : Bool) (x : Coord dims → Bool) :
    Res (Option (Coord dims → Bool) × (Coord dims → Bool)) :=
  binary_erosion_core cx (reflectS S) (adjOrigin shape origin) iterations mask
    outProvided bv true brute x

/-- The array produced by `binary_erosion(input, S, origin, border_value)`
with all remaining parameters at their defaults (`iterations=1`, no mask, no
output buffer, no brute force); the input itself on error. -/
def erodeArr {d : ℕ} {dims shape : Fin d → ℕ} (S : Coord shape → Bool)
    (origin : Fin d → ℤ) (bv : Bool) (x : Coord dims → Bool) :
    Coord dims → Bool :=
  match binary_erosion_core false S origin 1 none false bv false false x with
  | .ok pr => pr.2
  | .err _ => x

/-- The array produced by `binary_dilation(input, S, origin, border_value)`
with all remaining parameters at their defaults; the input itself on error. -/
def dilateArr {d : ℕ} {dims shape : Fin d → ℕ} (S : Coord shape → Bool)
    (origin : Fin d → ℤ) (bv : Bool) (x : Coord dims → Bool) :
    Coord dims → Bool :=
  match binary_dilation_core false S origin 1 none false bv false x with
  | .ok pr => pr.2
  | .err _ => x

/-- `generate_binary_structure`: cell `k` of the `3 × ... × 3` box is on iff
its L1 distance from the center is at most `connectivity` (clamped below
at 1). -/
def generate_binary_structure (d conn : ℕ) :
    Coord (fun _ : Fin d => 3) → Bool :=
  fun k => decide ((∑ i, ((k i : ℤ) - 1).natAbs) ≤ max conn 1)

/-- ASCII lower-casing of one character (`str.lower()` on the metric names). -/
def lowerChar (c : Char) : Char :=
  if ('A' ≤ c ∧ c ≤ 'Z') then Char.ofNat (c.toNat + 32) else c

/-- ASCII lower-casing of a string. -/
def lowerStr (s : String) : String := ⟨s.data.map lowerChar⟩

/-- The working array handed by `distance_transform_bf` to the per-metric
scan: foreground voxels hold `1`, voxels of the dilation of the foreground
that are not foreground themselves hold `-1`, all other voxels hold `0`
(`tmp1.astype(int8) - logical_xor(tmp1, binary_dilation(tmp1, struct))`
with the fully-connected structuring element). -/
def bf_work {d : ℕ} {dims : Fin d → ℕ} (x : Coord dims → Bool) :
    Coord dims → ℤ :=
  fun p =>
    (cond (x p) 1 0) -
      (cond (xor (x p)
        (dilateArr (generate_binary_structure d d) (fun _ => 0) false x p)) 1 0)

/-- The numeric metric code of `distance_transform_bf`
(1 euclidean, 2 taxicab, 3 chessboard; `none` rejects the name). -/
def bf_metric_code (metric : String) : Option ℕ :=
  let m := lowerStr metric
  if m = "euclidean" then some 1
  else if m = "taxicab" ∨ m = "cityblock" ∨ m = "manhattan" then some 2
  else if m = "chessboard" then some 3
  else none

/-- `distance_transform_bf`.  The missing C scan
`_nd_image.distance_transform_bf` is the abstract parameter `scan`, fed the
boundary-marked working array; it yields the distance array and the
(coordinate-valued stand-in for the flat) feature index of every voxel.
The triple returned is `(returned arrays, final contents of the distances
buffer, final contents of the indices buffer)`; caller-supplied buffers are
omitted from the returned list.  Note the feature-gathering loop reads the
caller-supplied `indices` buffer itself as gather source when one is given,
exactly as the source does. -/
def distance_transform_bf {d : ℕ} {dims : Fin d → ℕ}
    (scan : ℕ → Option (Fin d → ℚ) → (Coord dims → ℤ) →
      ((Coord dims → ℚ) × (Coord dims → Coord dims)))
    (cx : Bool) (x : Coord dims → Bool) (metric : String)
    (sampling : Option (Fin d → ℚ)) (rd ri : Bool)
    (distances : Option (Coord dims → ℚ))
    (indices : Option (Fin d → Coord dims → ℤ)) :
    Res (List ((Coord dims → ℚ) ⊕ (Fin d → Coord dims → ℤ)) ×
      Option (Coord dims → ℚ) × Option (Fin d → Coord dims → ℤ)) :=
  if !rd && !ri then .err .configError
  else
    match bf_metric_code metric with
    | none => .err .invalidMetric
    | some mc =>
      let r := scan mc sampling (bf_work x)
      let src : Fin d → Coord dims → ℤ :=
        match indices with
        | some b => b
        | none => fun ii p => ((p ii : ℕ) : ℤ)
      let ftFinal : Fin d → Coord dims → ℤ := fun ii p => src ii (r.2 p)
      let returned :=
        (if rd && distances.isNone then [Sum.inl r.1] else []) ++
          (if ri && indices.isNone then [Sum.inr ftFinal] else [])
      let dBufF := match distances with
        | none => none
        | some b => some (if rd then r.1 else b)
      let iBufF := match indices with
        | none => none
        | some b => some (if ri then ftFinal else b)
      .ok (returned, dBufF, iBufF)

/-- The metric argument of `distance_transform_cdt`: one of the two named
chamfer metrics, or a custom local-distance structuring element. -/
inductive CDTMetric (d : ℕ) where
  | taxicab
  | chessboard
  | custom (shape : Fin d → ℕ) (S : Coord shape → Bool)

/-- Resolution of the chamfer metric into a `3 × ... × 3` structuring
element: the named metrics use `generate_binary_structure` with squared
distance 1 resp. the rank, a custom structure must be of size 3 on every
axis. -/
def cdt_resolve {d : ℕ} (m : CDTMetric d) :
    Res (Coord (fun _ : Fin d => 3) → Bool) :=
  match m with
  | .taxicab => .ok (generate_binary_structure d 1)
  | .chessboard => .ok (generate_binary_structure d d)
  | .custom shape S =>
    if h : ∀ i, shape i = 3 then
      .ok (fun k => S (fun i => Fin.cast (h i).symm (k i)))
    else .err .metricSize

/-- The coordinate with every axis reversed. -/
def revCoord {d : ℕ} {dims : Fin d → ℕ} (p : Coord dims) : Coord dims :=
  fun i => (p i).rev

/-- The array with every axis reversed (`a[::-1, ..., ::-1]`). -/
def revArr {d : ℕ} {dims : Fin d → ℕ} {α : Type} (a : Coord dims → α) :
    Coord dims → α :=
  fun p => a (revCoord p)

/-- `distance_transform_cdt`.  The missing C sweep pair
`_nd_image.distance_transform_op` (one forward plus one backward raster pass)
is the abstract parameter `op`, updating the distance array and, when
present, the feature array.  Background voxels start at distance `0`,
foreground voxels at the sentinel `-1`; `op` is invoked twice, with the
arrays reversed on every axis between the invocations and again after the
second one; the feature indices are then gathered exactly as in
`distance_transform_bf`. -/
def distance_transform_cdt {d : ℕ} {dims : Fin d → ℕ}
    (op : (Coord (fun _ : Fin d => 3) → Bool) → (Coord dims → ℤ) →
      Option (Coord dims → Coord dims) →
      ((Coord dims → ℤ) × Option (Coord dims → Coord dims)))
    (cx : Bool) (x : Coord dims → Bool) (metric : CDTMetric d) (rd ri : Bool)
    (distances : Option (Coord dims → ℤ))
    (indices : Option (Fin d → Coord dims → ℤ)) :
    Res (List ((Coord dims → ℤ) ⊕ (Fin d → Coord dims → ℤ)) ×
      Option (Coord dims → ℤ) × Option (Fin d → Coord dims → ℤ)) :=
  if !rd && !ri then .err .configError
  else
    match cdt_resolve metric with
    | .err e => .err e
    | .ok s =>
      let dt0 : Coord dims → ℤ := fun p => if x p then -1 else 0
      let ft0 : Option (Coord dims → Coord dims) :=
        if ri then some (fun p => p) else none
      let r1 := op s dt0 ft0
      let r2 := op s (revArr r1.1) (r1.2.map revArr)
      let dtF := revArr r2.1
      let ftRev : Coord dims → Coord dims := (r2.2.map revArr).getD (fun p => p)
      let src : Fin d → Coord dims → ℤ :=
        match indices with
        | some b => b
        | none => fun ii p => ((p ii : ℕ) : ℤ)
      let ftFinal : Fin d → Coord dims → ℤ := fun ii p => src ii (ftRev p)
      let returned :=
        (if rd && distances.isNone then [Sum.inl dtF] else []) ++
          (if ri && indices.isNone then [Sum.inr ftFinal] else [])
      let dBufF := match distances with
        | none => none
        | some b => some (if rd then dtF else b)
      let iBufF := match indices with
        | none => none
        | some b => some (if ri then ftFinal else b)
      .ok (returned, dBufF, iBufF)

/-- The distance array derived by `distance_transform_edt` from the feature
transform `ft`: subtract the coordinate grid, scale each axis by the
sampling when one is given, square elementwise, sum over the leading axis
and take the square root. -/
noncomputable def edt_dt {d : ℕ} {dims : Fin d → ℕ}
    (ft : Fin d → Coord dims → ℤ) (sampling : Option (Fin d → ℝ)) :
    Coord dims → ℝ :=
  let dtDiff : Fin d → Coord dims → ℝ :=
    fun ii p => ((ft ii p : ℤ) : ℝ) - ((p ii : ℕ) : ℝ)
  let dtScaled : Fin d → Coord dims → ℝ :=
    match sampling with
    | some s => fun ii p => s ii * dtDiff ii p
    | none => dtDiff
  let dtSq : Fin d → Coord dims → ℝ := fun ii p => dtScaled ii p * dtScaled ii p
  fun p => Real.sqrt (∑ ii, dtSq ii p)

/-- `distance_transform_edt`.  The missing C routine
`_nd_image.euclidean_feature_transform` is the abstract parameter `eft`,
yielding for every voxel the per-axis coordinates of its nearest background
voxel; the distance array is `edt_dt` of that feature transform.  A caller
supplied `indices` buffer is written by the C routine itself (wholesale,
before any other use). -/
noncomputable def distance_transform_edt {d : ℕ} {dims : Fin d → ℕ}
    (eft : (Coord dims → Bool) → Option (Fin d → ℝ) →
      (Fin d → Coord dims → ℤ))
    (cx : Bool) (x : Coord dims → Bool) (sampling : Option (Fin d → ℝ))
    (rd ri : Bool) (distances : Option (Coord dims → ℝ))
    (indices : Option (Fin d → Coord dims → ℤ)) :
    Res (List ((Coord dims → ℝ) ⊕ (Fin d → Coord dims → ℤ)) ×
      Option (Coord dims → ℝ) × Option (Fin d → Coord dims → ℤ)) :=
  if !rd && !ri then .err .configError
  else
    let ft := eft x sampling
    let dt : Coord dims → ℝ := edt_dt ft sampling
    let returned :=
      (if rd && distances.isNone then [Sum.inl dt] else []) ++
        (if ri && indices.isNone then [Sum.inr ft] else [])
    let dBufF := match distances with
      | none => none
      | some b => some (if rd then dt else b)
    let iBufF := match indices with
      | none => none
      | some _ => some ft
    .ok (returned, dBufF, iBufF)

/-- Unpack a `Res`, falling back to a default on error. -/
def resOr {α : Type} (r : Res α) (dflt : α) : α :=
  match r with
  | .ok a => a
  | .err _ => dflt

/-- Concrete fixtures shared by the witnesses: a 1-D 2-voxel array with the
second voxel on, and the all-on 3-cell structuring element. -/
def dims2w : Fin 1 → ℕ := fun _ => 2

def sh3w : Fin 1 → ℕ := fun _ => 3

def allOnS : Coord sh3w → Bool := fun _ => true

def zeroOrg : Fin 1 → ℤ := fun _ => 0

def x01w : Coord dims2w → Bool := fun p => decide ((p 0 : ℕ) = 1)

/-! ### Basic lemmas about coordinates and the kernel -/

lemma inB_toZ {d : ℕ} {dims : Fin d → ℕ} (p : Coord dims) : inB dims (toZ p) := by
  intro i
  simp only [toZ]
  exact ⟨Int.natCast_nonneg _, by exact_mod_cast (p i).isLt⟩

lemma toIdx_toZ {d : ℕ} {dims : Fin d → ℕ} (p : Coord dims)
    (h : inB dims (toZ p)) : toIdx (toZ p) h = p := by
  funext i
  apply Fin.ext
  simp [toIdx, toZ]

lemma effVal_toZ {d : ℕ} {dims : Fin d → ℕ} (A : Coord dims → Bool) (bv : Bool)
    (p : Coord dims) : effVal A bv (toZ p) = A p := by
  rw [effVal, dif_pos (inB_toZ p), toIdx_toZ]

lemma effVal_congr {d : ℕ} {dims : Fin d → ℕ} {a b : Coord dims → Bool}
    (bv : Bool) (c : Fin d → ℤ)
    (hag : ∀ h : inB dims c, a (toIdx c h) = b (toIdx c h)) :
    effVal a bv c = effVal b bv c := by
  rw [effVal, effVal]
  split
  · exact hag _
  · rfl

lemma kernelVal_congr {d : ℕ} {dims shape : Fin d → ℕ} (invert : Bool)
    (S : Coord shape → Bool) (origin : Fin d → ℤ) (bv : Bool)
    {a b : Coord dims → Bool} (p : Coord dims)
    (hloc : ∀ k, S k = true →
      effVal a bv (probe shape origin p k) = effVal b bv (probe shape origin p k)) :
    kernelVal invert S origin bv a p = kernelVal invert S origin bv b p := by
  rw [kernelVal, kernelVal]
  cases invert
  · simp only [if_neg Bool.false_ne_true, Bool.false_eq_true, if_false]
    apply decide_eq_decide.mpr
    constructor
    · intro h k hk
      rw [← hloc k hk]
      exact h k hk
    · intro h k hk
      rw [hloc k hk]
      exact h k hk
  · simp only [if_pos rfl, if_true]
    apply decide_eq_decide.mpr
    constructor
    · rintro ⟨k, hk, hv⟩
      exact ⟨k, hk, by rw [← hloc k hk]; exact hv⟩
    · rintro ⟨k, hk, hv⟩
      exact ⟨k, hk, by rw [hloc k hk]; exact hv⟩

/-! ### The worklist propagation computes exactly the iterated kernel -/

lemma wlStep_eq {d : ℕ} {dims shape : Fin d → ℕ} (invert : Bool)
    (S : Coord shape → Bool) (origin : Fin d → ℤ) (bv : Bool)
    (mask : Option (Coord dims → Bool)) (b : Coord dims → Bool) :
    wlStep invert S origin bv mask
        (step invert S origin bv mask b,
          diffSet (step invert S origin bv mask b) b) =
      (step invert S origin bv mask (step invert S origin bv mask b),
        diffSet (step invert S origin bv mask (step invert S origin bv mask b))
          (step invert S origin bv mask b)) := by
  set f := step invert S origin bv mask with hf
  set a := f b with ha
  set W := diffSet a b with hW
  have hout : ∀ p, p ∉ reach S origin W → f a p = a p := by
    intro p hp
    show (if maskVal mask p then kernelVal invert S origin bv a p else a p) = a p
    rcases hmv : maskVal mask p with _ | _
    · simp only [Bool.false_eq_true, if_false]
    · simp only [if_true]
      have hb : a p = kernelVal invert S origin bv b p := by
        rw [ha, hf]
        show (if maskVal mask p then kernelVal invert S origin bv b p else b p) = _
        rw [hmv, if_pos rfl]
      rw [hb]
      apply kernelVal_congr
      intro k hk
      apply effVal_congr
      intro hin
      by_contra hne
      apply hp
      rw [reach, Finset.mem_filter]
      refine ⟨Finset.mem_univ _, k, hk, ?_⟩
      rw [inW, dif_pos hin, decide_eq_true_eq, hW, diffSet, Finset.mem_filter]
      exact ⟨Finset.mem_univ _, hne⟩
  have harr : wlArr invert S origin bv mask (a, W) = f a := by
    funext p
    rw [wlArr]
    split
    · rfl
    · next hp => exact (hout p hp).symm
  rw [wlStep, harr]
  refine Prod.ext rfl ?_
  show (reach S origin W).filter (fun p => f a p ≠ a p) = diffSet (f a) a
  apply Finset.ext
  intro p
  rw [Finset.mem_filter, diffSet, Finset.mem_filter]
  constructor
  · rintro ⟨_, hne⟩
    exact ⟨Finset.mem_univ _, hne⟩
  · rintro ⟨_, hne⟩
    refine ⟨?_, hne⟩
    by_contra hp
    exact hne (hout p hp)

lemma wlStep_iterate {d : ℕ} {dims shape : Fin d → ℕ} (invert : Bool)
    (S : Coord shape → Bool) (origin : Fin d → ℤ) (bv : Bool)
    (mask : Option (Coord dims → Bool)) (x : Coord dims → Bool) (n : ℕ) :
    (wlStep invert S origin bv mask)^[n]
        (step invert S origin bv mask x,
          diffSet (step invert S origin bv mask x) x) =
      ((step invert S origin bv mask)^[n + 1] x,
        diffSet ((step invert S origin bv mask)^[n + 1] x)
          ((step invert S origin bv mask)^[n] x)) := by
  induction n with
  | zero => simp
  | succ n ih =>
    rw [Function.iterate_succ_apply', ih]
    have h1 : (step invert S origin bv mask)^[n + 1] x =
        step invert S origin bv mask ((step invert S origin bv mask)^[n] x) :=
      Function.iterate_succ_apply' _ _ _
    have h2 : (step invert S origin bv mask)^[n + 1 + 1] x =
        step invert S origin bv mask
          (step invert S origin bv mask ((step invert S origin bv mask)^[n] x)) := by
      rw [Function.iterate_succ_apply', h1]
    rw [h1, h2, wlStep_eq]

/-! ### Fixed-point loops -/

lemma stabFuel_eq {α : Type} [DecidableEq α] (f : α → α) :
    ∀ (fuel m : ℕ) (x : α), f^[m + 1] x = f^[m] x →
      (∀ j < m, f^[j + 1] x ≠ f^[j] x) → m ≤ fuel →
      stabFuel f fuel x = f^[m] x := by
  intro fuel
  induction fuel with
  | zero =>
    intro m x hm _ hle
    have hm0 : m = 0 := Nat.le_zero.mp hle
    subst hm0
    simp only [stabFuel, Function.iterate_zero_apply]
  | succ n ih =>
    intro m x hm hmin hle
    by_cases hfx : f x = x
    · have hm0 : m = 0 := by
        by_contra h0
        have := hmin 0 (Nat.pos_of_ne_zero h0)
        simp only [Function.iterate_one, Function.iterate_zero_apply] at this
        exact this hfx
      subst hm0
      simp only [stabFuel, if_pos hfx, Function.iterate_zero_apply]
      exact hfx
    · have hm1 : m ≠ 0 := by
        rintro rfl
        simp only [Function.iterate_one, Function.iterate_zero_apply] at hm
        exact hfx hm
      obtain ⟨m1, rfl⟩ : ∃ m1, m = m1 + 1 := ⟨m - 1, by omega⟩
      have key : ∀ j, f^[j] (f x) = f^[j + 1] x := fun j =>
        (Function.iterate_succ_apply f j x).symm
      have hres := ih m1 (f x)
        (by rw [key, key]; exact hm)
        (by intro j hj; rw [key, key]; exact hmin (j + 1) (by omega))
        (by omega)
      simp only [stabFuel, if_neg hfx]
      rw [hres, key]

lemma diffSet_eq_empty_iff {d : ℕ} {dims : Fin d → ℕ}
    (a b : Coord dims → Bool) : diffSet a b = ∅ ↔ a = b := by
  rw [diffSet, Finset.filter_eq_empty_iff]
  constructor
  · intro h
    funext p
    have := h (Finset.mem_univ p)
    simpa using this
  · intro h p _
    simp [h]

lemma wlStab_eq {d : ℕ} {dims shape : Fin d → ℕ} (invert : Bool)
    (S : Coord shape → Bool) (origin : Fin d → ℤ) (bv : Bool)
    (mask : Option (Coord dims → Bool)) (x : Coord dims → Bool) (m : ℕ)
    (hm : (step invert S origin bv mask)^[m + 1] x =
      (step invert S origin bv mask)^[m] x)
    (hmin : ∀ j < m, (step invert S origin bv mask)^[j + 1] x ≠
      (step invert S origin bv mask)^[j] x) :
    ∀ (fuel j : ℕ), j ≤ m → m - j ≤ fuel →
      (wlStab invert S origin bv mask fuel
          ((wlStep invert S origin bv mask)^[j]
            (step invert S origin bv mask x,
              diffSet (step invert S origin bv mask x) x))).1 =
        (step invert S origin bv mask)^[m] x := by
  intro fuel
  induction fuel with
  | zero =>
    intro j hj hfuel
    have hjm : j = m := by omega
    subst hjm
    rw [wlStep_iterate]
    simp only [wlStab]
    exact hm
  | succ n ih =>
    intro j hj hfuel
    rw [wlStep_iterate]
    simp only [wlStab]
    by_cases hW : diffSet ((step invert S origin bv mask)^[j + 1] x)
        ((step invert S origin bv mask)^[j] x) = ∅
    · rw [if_pos hW]
      have hstab : (step invert S origin bv mask)^[j + 1] x =
          (step invert S origin bv mask)^[j] x :=
        (diffSet_eq_empty_iff _ _).mp hW
      have hjm : j = m := by
        by_contra hne
        exact hmin j (by omega) hstab
      subst hjm
      exact hstab
    · rw [if_neg hW]
      have hstep : wlStep invert S origin bv mask
          ((step invert S origin bv mask)^[j + 1] x,
            diffSet ((step invert S origin bv mask)^[j + 1] x)
              ((step invert S origin bv mask)^[j] x)) =
          (wlStep invert S origin bv mask)^[j + 1]
            (step invert S origin bv mask x,
              diffSet (step invert S origin bv mask x) x) := by
        rw [Function.iterate_succ_apply' (wlStep invert S origin bv mask),
          wlStep_iterate]
      rw [hstep]
      have hjm : j ≠ m := by
        rintro rfl
        exact hW ((diffSet_eq_empty_iff _ _).mpr hm)
      exact ih (j + 1) (by omega) (by omega)

lemma exists_stab_of_measure {α : Type} (g : α → α) (mu : α → ℕ)
    (hprog : ∀ a, g a ≠ a → mu (g a) < mu a) (x : α) :
    ∃ m, g^[m + 1] x = g^[m] x := by
  suffices h : ∀ (n : ℕ) (y : α), mu y ≤ n → ∃ m, g^[m + 1] y = g^[m] y from
    h (mu x) x le_rfl
  intro n
  induction n with
  | zero =>
    intro y hy
    refine ⟨0, ?_⟩
    simp only [Function.iterate_one, Function.iterate_zero_apply]
    by_contra hgy
    have := hprog y hgy
    omega
  | succ n ih =>
    intro y hy
    by_cases hgy : g y = y
    · exact ⟨0, by
        simpa only [Function.iterate_one, Function.iterate_zero_apply] using hgy⟩
    · obtain ⟨m, hmv⟩ := ih (g y) (by have := hprog y hgy; omega)
      refine ⟨m + 1, ?_⟩
      rw [Function.iterate_succ_apply, Function.iterate_succ_apply]
      exact hmv

lemma stab_lt_card {α : Type} [Fintype α] [DecidableEq α] (f : α → α) (x : α)
    (h : ∃ m, f^[m + 1] x = f^[m] x) :
    Nat.find h < Fintype.card α := by
  by_contra hge
  push_neg at hge
  set m0 := Nat.find h with hm0
  have hfix : ∀ k, m0 ≤ k → f^[k] x = f^[m0] x := by
    intro k hk
    induction k, hk using Nat.le_induction with
    | base => rfl
    | succ k hk ihk =>
      rw [Function.iterate_succ_apply', ihk,
        ← Function.iterate_succ_apply' f m0 x]
      exact Nat.find_spec h
  have hcard : Fintype.card α < Fintype.card (Fin (m0 + 1)) := by
    simp only [Fintype.card_fin]
    omega
  have main : ∀ a b : ℕ, a < b → b ≤ m0 → f^[a] x = f^[b] x → False := by
    intro a b hab hbm habe
    have hper : ∀ t : ℕ, f^[a + t * (b - a)] x = f^[a] x := by
      intro t
      induction t with
      | zero => simp
      | succ t iht =>
        have he : a + (t + 1) * (b - a) = (b - a) + (a + t * (b - a)) := by
          rw [Nat.succ_mul]
          omega
        rw [he, Function.iterate_add_apply, iht, ← Function.iterate_add_apply]
        have he2 : (b - a) + a = b := by omega
        rw [he2, ← habe]
    have hk : m0 ≤ a + m0 * (b - a) := by
      have h1 : m0 * 1 ≤ m0 * (b - a) := Nat.mul_le_mul_left m0 (by omega)
      omega
    have h1 : f^[a + m0 * (b - a)] x = f^[a] x := hper m0
    have h2 : f^[a + m0 * (b - a)] x = f^[m0] x := hfix _ hk
    have h3 : f^[a + m0 * (b - a) + 1] x = f^[m0] x := hfix _ (by omega)
    have h4 : f^[a + m0 * (b - a) + 1] x = f (f^[a + m0 * (b - a)] x) :=
      Function.iterate_succ_apply' _ _ _
    have h5 : f^[a + 1] x = f (f^[a] x) := Function.iterate_succ_apply' _ _ _
    have hstab : f^[a + 1] x = f^[a] x := by
      rw [h5, ← h1, ← h4, h3, ← h2, h1]
    exact Nat.find_min h (show a < m0 by omega) hstab
  obtain ⟨i, j, hij, hfe⟩ :=
    Fintype.exists_ne_map_eq_of_card_lt
      (fun t : Fin (m0 + 1) => f^[(t : ℕ)] x) hcard
  rcases Nat.lt_trichotomy (i : ℕ) (j : ℕ) with hlt | heq | hgt
  · exact main i j hlt (by omega) hfe
  · exact hij (Fin.ext heq)
  · exact main j i hgt (by omega) hfe.symm

/-! ### Consequences of the center of the structuring element being on -/

lemma center_on {d : ℕ} {shape : Fin d → ℕ} {S : Coord shape → Bool}
    {origin : Fin d → ℤ} (hc : center_is_true S origin = true) :
    ∃ h : inB shape (fun i => origin i + ((shape i / 2 : ℕ) : ℤ)),
      S (toIdx _ h) = true := by
  unfold center_is_true at hc
  split at hc
  · next h => exact ⟨h, hc⟩
  · exact absurd hc (by simp)

lemma center_probe {d : ℕ} {dims shape : Fin d → ℕ} (origin : Fin d → ℤ)
    (p : Coord dims)
    (h : inB shape (fun i => origin i + ((shape i / 2 : ℕ) : ℤ))) :
    probe shape origin p (toIdx _ h) = toZ p := by
  funext i
  simp only [probe, toIdx, toZ]
  have hnn : (0 : ℤ) ≤ origin i + ((shape i / 2 : ℕ) : ℤ) := (h i).1
  omega

lemma step_progress_cit {d : ℕ} {dims shape : Fin d → ℕ} {invert : Bool}
    {S : Coord shape → Bool} {origin : Fin d → ℤ} {bv : Bool}
    {mask : Option (Coord dims → Bool)}
    (hc : center_is_true S origin = true) (a : Coord dims → Bool)
    (p : Coord dims) (hs : step invert S origin bv mask a p = !invert) :
    a p = !invert := by
  obtain ⟨h, hS⟩ := center_on hc
  have hpr := center_probe origin p h
  unfold step at hs
  rcases hmv : maskVal mask p with _ | _
  · rw [hmv] at hs
    simpa using hs
  · rw [hmv, if_pos rfl] at hs
    unfold kernelVal at hs
    cases invert
    · have hs2 : decide (∀ k, S k = true →
          effVal a bv (probe shape origin p k) = true) = true := by
        simpa using hs
      show a p = true
      rw [decide_eq_true_eq] at hs2
      have := hs2 (toIdx _ h) hS
      rwa [hpr, effVal_toZ] at this
    · have hs2 : decide (∃ k, S k = true ∧
          effVal a bv (probe shape origin p k) = true) = false := by
        simpa using hs
      show a p = false
      rw [decide_eq_false_iff_not] at hs2
      by_contra hap
      have hap2 : a p = true := by
        cases hav : a p
        · exact absurd hav hap
        · rfl
      exact hs2 ⟨toIdx _ h, hS, by rw [hpr, effVal_toZ]; exact hap2⟩

/-- The quantity that strictly decreases while a centered erosion (resp.
dilation) keeps changing: the number of foreground (resp. background)
voxels. -/
def progMeasure {d : ℕ} {dims : Fin d → ℕ} (invert : Bool)
    (a : Coord dims → Bool) : ℕ :=
  (Finset.univ.filter (fun p => a p = !invert)).card

lemma step_measure_lt {d : ℕ} {dims shape : Fin d → ℕ} {invert : Bool}
    {S : Coord shape → Bool} {origin : Fin d → ℤ} {bv : Bool}
    {mask : Option (Coord dims → Bool)}
    (hc : center_is_true S origin = true) (a : Coord dims → Bool)
    (hne : step invert S origin bv mask a ≠ a) :
    progMeasure invert (step invert S origin bv mask a) < progMeasure invert a := by
  apply Finset.card_lt_card
  have hsub : Finset.univ.filter (fun p => step invert S origin bv mask a p = !invert) ⊆
      Finset.univ.filter (fun p => a p = !invert) := by
    intro p hp
    rw [Finset.mem_filter] at hp ⊢
    exact ⟨Finset.mem_univ _, step_progress_cit hc a p hp.2⟩
  rw [Finset.ssubset_iff_of_subset hsub]
  obtain ⟨p, hp⟩ := Function.ne_iff.mp hne
  have h1 : step invert S origin bv mask a p ≠ !invert := by
    intro he
    exact hp (he.trans (step_progress_cit hc a p he).symm)
  have h2 : a p = !invert := by
    rcases hav : a p <;> rcases hsv : step invert S origin bv mask a p <;>
      rcases invert <;> simp_all
  refine ⟨p, ?_, ?_⟩
  · rw [Finset.mem_filter]
    exact ⟨Finset.mem_univ _, h2⟩
  · rw [Finset.mem_filter]
    intro hmem
    exact h1 hmem.2

lemma cit_exists_stab {d : ℕ} {dims shape : Fin d → ℕ} {invert : Bool}
    {S : Coord shape → Bool} {origin : Fin d → ℤ} {bv : Bool}
    {mask : Option (Coord dims → Bool)}
    (hc : center_is_true S origin = true) (x : Coord dims → Bool) :
    ∃ m, (step invert S origin bv mask)^[m + 1] x =
      (step invert S origin bv mask)^[m] x :=
  exists_stab_of_measure _ (progMeasure invert)
    (fun a hne => step_measure_lt hc a hne) x

/-! ### The two multi-iteration strategies agree -/

lemma stab_paths_eq {d : ℕ} {dims shape : Fin d → ℕ} (invert : Bool)
    (S : Coord shape → Bool) (origin : Fin d → ℤ) (bv : Bool)
    (mask : Option (Coord dims → Bool)) (x : Coord dims → Bool)
    (h : ∃ m, (step invert S origin bv mask)^[m + 1] x =
      (step invert S origin bv mask)^[m] x) :
    (wlStab invert S origin bv mask (FUEL dims)
        (step invert S origin bv mask x,
          diffSet (step invert S origin bv mask x) x)).1 =
      stabFuel (step invert S origin bv mask) (FUEL dims) x := by
  have hbound : Nat.find h < FUEL dims := stab_lt_card _ x h
  have h1 := stabFuel_eq (step invert S origin bv mask) (FUEL dims)
    (Nat.find h) x (Nat.find_spec h) (fun j hj => Nat.find_min h hj)
    (le_of_lt hbound)
  have h2 := wlStab_eq invert S origin bv mask x (Nat.find h)
    (Nat.find_spec h) (fun j hj => Nat.find_min h hj) (FUEL dims) 0
    (Nat.zero_le _) (by omega)
  simp only [Function.iterate_zero_apply] at h2
  rw [h1, h2]

lemma erosion_result_flag {d : ℕ} {dims shape : Fin d → ℕ}
    {S : Coord shape → Bool} {origin : Fin d → ℤ}
    (hc : center_is_true S origin = true) (iterations : ℤ)
    (mask : Option (Coord dims → Bool)) (bv invert : Bool)
    (brute1 brute2 : Bool) (x : Coord dims → Bool) :
    erosion_result S origin iterations mask bv invert brute1 x =
      erosion_result S origin iterations mask bv invert brute2 x := by
  have key : ∀ brute : Bool,
      erosion_result S origin iterations mask bv invert brute x =
        erosion_result S origin iterations mask bv invert true x := by
    intro brute
    rcases brute with _ | _
    case true => rfl
    case false =>
    unfold erosion_result
    by_cases h1 : iterations = 1
    · rw [if_pos h1, if_pos h1]
    · rw [if_neg h1, if_neg h1, hc]
      simp only [Bool.not_false, Bool.not_true, Bool.and_self,
        Bool.and_false, Bool.false_eq_true, if_false, if_pos rfl]
      by_cases h2 : 1 ≤ iterations - 1
      · have harith : (iterations - 1).toNat + 1 = iterations.toNat := by omega
        rw [if_pos h2, if_pos (show (1 : ℤ) ≤ iterations by omega),
          wlStep_iterate, harith]
        simp
      · rw [if_neg h2, if_neg (show ¬ (1 : ℤ) ≤ iterations by omega)]
        exact stab_paths_eq invert S origin bv mask x (cit_exists_stab hc x)
  rw [key brute1, key brute2]

lemma center_is_true_reflect {d : ℕ} {shape : Fin d → ℕ}
    (S : Coord shape → Bool) (origin : Fin d → ℤ) :
    center_is_true (reflectS S) (adjOrigin shape origin) =
      center_is_true S origin := by
  unfold center_is_true
  have hiff : inB shape
      (fun i => adjOrigin shape origin i + ((shape i / 2 : ℕ) : ℤ)) ↔
      inB shape (fun i => origin i + ((shape i / 2 : ℕ) : ℤ)) := by
    constructor <;> intro h i <;> have hx := h i <;>
      simp only [adjOrigin] at hx ⊢ <;> by_cases hpar : shape i % 2 = 0
    · rw [if_pos hpar] at hx
      constructor <;> omega
    · rw [if_neg hpar] at hx
      constructor <;> omega
    · rw [if_pos hpar]
      constructor <;> omega
    · rw [if_neg hpar]
      constructor <;> omega
  by_cases h : inB shape (fun i => origin i + ((shape i / 2 : ℕ) : ℤ))
  · rw [dif_pos h, dif_pos (hiff.mpr h)]
    unfold reflectS
    congr 1
    funext i
    apply Fin.ext
    simp only [toIdx, Fin.val_rev]
    have h1 := (h i).1
    have h2 := (h i).2
    have h3 := ((hiff.mpr h) i).1
    have h4 := ((hiff.mpr h) i).2
    simp only [adjOrigin] at h3 h4 ⊢
    by_cases hpar : shape i % 2 = 0
    · rw [if_pos hpar] at h3 h4 ⊢
      omega
    · rw [if_neg hpar] at h3 h4 ⊢
      omega
  · rw [dif_neg h, dif_neg (fun hx => h (hiff.mp hx))]

/-- C1: for every input, structuring element whose center cell (at
`origin + shape//2` per axis) is on, origin, border value, mask and
iteration count, the optimized coordinate-worklist path of `_binary_erosion`
(`brute_force = False`) produces exactly the output of the brute-force
ping-pong path (`brute_force = True`), both for erosion and for the dilation
derived from it. -/
theorem worklist_equals_brute_force {d : ℕ} {dims shape : Fin d → ℕ}
    (cx : Bool) (S : Coord shape → Bool) (origin : Fin d → ℤ)
    (iterations : ℤ) (mask : Option (Coord dims → Bool))
    (outProvided bv invert : Bool) (x : Coord dims → Bool)
    (hc : center_is_true S origin = true) :
    binary_erosion_core cx S origin iterations mask outProvided bv invert
        false x =
      binary_erosion_core cx S origin iterations mask outProvided bv invert
        true x ∧
    binary_dilation_core cx S origin iterations mask outProvided bv false x =
      binary_dilation_core cx S origin iterations mask outProvided bv true x := by
  constructor
  · unfold binary_erosion_core
    rw [erosion_result_flag hc iterations mask bv invert false true x]
  · have hc2 : center_is_true (reflectS S) (adjOrigin shape origin) = true := by
      rw [center_is_true_reflect]
      exact hc
    unfold binary_dilation_core binary_erosion_core
    rw [erosion_result_flag hc2 iterations mask bv true false true x]

/-- Witness for C1 at a concrete instance: a 2-voxel 1-D array, the full
3-cell structuring element (centered, so its center is on) and 2
iterations. -/
theorem worklist_equals_brute_force_witness :
    center_is_true allOnS zeroOrg = true ∧
    (binary_erosion_core false allOnS zeroOrg 2 none
        false false false false x01w =
      binary_erosion_core false allOnS zeroOrg 2 none
        false false false true x01w ∧
    binary_dilation_core false allOnS zeroOrg 2 none
        false false false x01w =
      binary_dilation_core false allOnS zeroOrg 2 none
        false false true x01w) :=
  ⟨by decide,
    worklist_equals_brute_force false allOnS zeroOrg 2 none
      false false false x01w (by decide)⟩

end NdMorph

namespace NdMorph

/-- The output array of a non-erroring `_binary_erosion` call without a
caller-supplied output buffer (the input itself on error, as a junk
default). -/
def erosion_out {d : ℕ} {dims shape : Fin d → ℕ} (S : Coord shape → Bool)
    (origin : Fin d → ℤ) (iterations : ℤ)
    (mask : Option (Coord dims → Bool)) (bv invert brute : Bool)
    (x : Coord dims → Bool) : Coord dims → Bool :=
  (resOr (binary_erosion_core false S origin iterations mask false bv invert
    brute x) (none, x)).2

lemma erosion_out_eq {d : ℕ} {dims shape : Fin d → ℕ} (S : Coord shape → Bool)
    (origin : Fin d → ℤ) (iterations : ℤ)
    (mask : Option (Coord dims → Bool)) (bv invert brute : Bool)
    (x : Coord dims → Bool) (hne : (∏ i, shape i) ≠ 0) :
    erosion_out S origin iterations mask bv invert brute x =
      erosion_result S origin iterations mask bv invert brute x := by
  unfold erosion_out binary_erosion_core
  simp only [Bool.false_eq_true, if_false, if_neg hne]
  rfl

lemma erosion_result_ge_one {d : ℕ} {dims shape : Fin d → ℕ}
    (S : Coord shape → Bool) (origin : Fin d → ℤ) (iterations : ℤ)
    (mask : Option (Coord dims → Bool)) (bv invert brute : Bool)
    (x : Coord dims → Bool) (h1 : 1 ≤ iterations) :
    erosion_result S origin iterations mask bv invert brute x =
      (step invert S origin bv mask)^[iterations.toNat] x := by
  unfold erosion_result
  by_cases hit : iterations = 1
  · subst hit
    rw [if_pos rfl]
    rfl
  · rw [if_neg hit]
    by_cases hcb : (center_is_true S origin && !brute) = true
    · rw [if_pos hcb, if_pos (show (1 : ℤ) ≤ iterations - 1 by omega),
        wlStep_iterate, show (iterations - 1).toNat + 1 = iterations.toNat by
          omega]
    · rw [if_neg hcb, if_pos h1]

lemma erosion_result_lt_one {d : ℕ} {dims shape : Fin d → ℕ}
    (S : Coord shape → Bool) (origin : Fin d → ℤ) (iterations : ℤ)
    (mask : Option (Coord dims → Bool)) (bv invert brute : Bool)
    (x : Coord dims → Bool) (hlt : iterations < 1)
    (hstab : ∃ m, (step invert S origin bv mask)^[m + 1] x =
      (step invert S origin bv mask)^[m] x) :
    erosion_result S origin iterations mask bv invert brute x =
      (step invert S origin bv mask)^[Nat.find hstab] x := by
  have hbound : Nat.find hstab < FUEL dims := stab_lt_card _ x hstab
  have hfuel := stabFuel_eq (step invert S origin bv mask) (FUEL dims)
    (Nat.find hstab) x (Nat.find_spec hstab)
    (fun j hj => Nat.find_min hstab hj) (le_of_lt hbound)
  unfold erosion_result
  rw [if_neg (show ¬ iterations = 1 by omega)]
  by_cases hcb : (center_is_true S origin && !brute) = true
  · rw [if_pos hcb, if_neg (show ¬ (1 : ℤ) ≤ iterations - 1 by omega),
      stab_paths_eq invert S origin bv mask x hstab, hfuel]
  · rw [if_neg hcb, if_neg (show ¬ (1 : ℤ) ≤ iterations by omega), hfuel]

/-- C3: on valid (non-complex, non-empty-structure) inputs, when
`iterations ≥ 1` the result of `_binary_erosion` — on every path — is the
single-iteration kernel applied `iterations` times, each pass feeding the
previous result back as input; when `iterations < 1` and the iteration
reaches a pass that changes nothing, the result is a fixed point of the
single-iteration kernel, itself of the form "kernel applied `k` times to the
input". -/
theorem iteration_semantics {d : ℕ} {dims shape : Fin d → ℕ}
    (S : Coord shape → Bool) (origin : Fin d → ℤ) (iterations : ℤ)
    (mask : Option (Coord dims → Bool)) (bv invert brute : Bool)
    (x : Coord dims → Bool) (hne : (∏ i, shape i) ≠ 0) :
    (1 ≤ iterations →
      erosion_out S origin iterations mask bv invert brute x =
        (step invert S origin bv mask)^[iterations.toNat] x) ∧
    (iterations < 1 →
      ∀ _ : ∃ m, (step invert S origin bv mask)^[m + 1] x =
          (step invert S origin bv mask)^[m] x,
        step invert S origin bv mask
            (erosion_out S origin iterations mask bv invert brute x) =
          erosion_out S origin iterations mask bv invert brute x ∧
        ∃ k, erosion_out S origin iterations mask bv invert brute x =
          (step invert S origin bv mask)^[k] x) := by
  constructor
  · intro h1
    rw [erosion_out_eq S origin iterations mask bv invert brute x hne]
    exact erosion_result_ge_one S origin iterations mask bv invert brute x h1
  · intro hlt hstab
    rw [erosion_out_eq S origin iterations mask bv invert brute x hne,
      erosion_result_lt_one S origin iterations mask bv invert brute x hlt
        hstab]
    constructor
    · rw [← Function.iterate_succ_apply' (step invert S origin bv mask)
        (Nat.find hstab) x]
      exact Nat.find_spec hstab
    · exact ⟨Nat.find hstab, rfl⟩

/-- Witness for C3 at a concrete instance: 1-D 2-voxel array, the all-on
3-cell structuring element, `iterations = 0` (fixed-point mode), discharging
the validity hypothesis. -/
theorem iteration_semantics_witness :
    ((∏ i, sh3w i) ≠ 0) ∧
    ((1 ≤ (0 : ℤ) →
      erosion_out allOnS zeroOrg 0 none false false false x01w =
        (step false allOnS zeroOrg false none)^[(0 : ℤ).toNat] x01w) ∧
    ((0 : ℤ) < 1 →
      ∀ _ : ∃ m, (step false allOnS zeroOrg false none)^[m + 1] x01w =
          (step false allOnS zeroOrg false none)^[m] x01w,
        step false allOnS zeroOrg false none
            (erosion_out allOnS zeroOrg 0 none false false false x01w) =
          erosion_out allOnS zeroOrg 0 none false false false x01w ∧
        ∃ k, erosion_out allOnS zeroOrg 0 none false false false x01w =
          (step false allOnS zeroOrg false none)^[k] x01w)) :=
  ⟨by decide,
    iteration_semantics allOnS zeroOrg 0 none false false false x01w
      (by decide)⟩

end NdMorph

namespace NdMorph

/-! ### Duality of dilation and erosion (C2) -/

lemma effVal_not {d : ℕ} {dims : Fin d → ℕ} (a : Coord dims → Bool)
    (bv : Bool) (c : Fin d → ℤ) :
    effVal (fun q => !(a q)) (!bv) c = !(effVal a bv c) := by
  unfold effVal
  split <;> rfl

lemma kernelVal_dual {d : ℕ} {dims shape : Fin d → ℕ} (S : Coord shape → Bool)
    (origin : Fin d → ℤ) (bv : Bool) (a : Coord dims → Bool) (p : Coord dims) :
    kernelVal true S origin bv a p =
      !(kernelVal false S origin (!bv) (fun q => !(a q)) p) := by
  unfold kernelVal
  simp only [if_pos rfl, Bool.false_eq_true, if_false, ← decide_not]
  apply decide_eq_decide.mpr
  constructor
  · rintro ⟨k, hk, he⟩ hall
    have := hall k hk
    rw [effVal_not, he] at this
    exact absurd this (by simp)
  · intro hnot
    by_contra hnone
    apply hnot
    intro k hk
    rw [effVal_not]
    cases hev : effVal a bv (probe shape origin p k)
    · rfl
    · exact absurd ⟨k, hk, hev⟩ hnone

/-- A 1-voxel 1-D all-background array. -/
def dims1w : Fin 1 → ℕ := fun _ => 1

def xVoid : Coord dims1w → Bool := fun _ => false

/-- Counterexample to C2 as stated: with the default border value 0 used on
both sides, `binary_dilation` of the all-background 1-voxel array is not the
complement of `binary_erosion` of its complement with the reflected
structure and adjusted origin (the dilation treats out-of-bounds neighbors
as background, the erosion of the complement must treat them as foreground
for the duality to hold). -/
theorem dilation_duality_counterexample :
    ¬ (dilateArr allOnS zeroOrg false xVoid =
      fun p => !(erodeArr (reflectS allOnS) (adjOrigin sh3w zeroOrg) false
        (fun q => !(xVoid q)) p)) := by
  decide

/-- C2 (amended): `binary_dilation(input, S, origin, bv)` is the logical
complement of `binary_erosion` applied to the complement of the input with
`S` reflected through its center, the origin negated (decremented by one on
even-length axes) and the **complement** of the border value — the two
operations are duals once the border value is complemented along with the
input. -/
theorem dilation_duality {d : ℕ} {dims shape : Fin d → ℕ}
    (S : Coord shape → Bool) (origin : Fin d → ℤ) (bv : Bool)
    (x : Coord dims → Bool) :
    dilateArr S origin bv x =
      fun p => !(erodeArr (reflectS S) (adjOrigin shape origin) (!bv)
        (fun q => !(x q)) p) := by
  unfold dilateArr erodeArr binary_dilation_core binary_erosion_core
  by_cases hsh : (∏ i, shape i) = 0
  · simp only [Bool.false_eq_true, if_false, if_pos hsh]
    funext p
    show x p = !(!(x p))
    rw [Bool.not_not]
  · simp only [Bool.false_eq_true, if_false, if_neg hsh]
    show erosion_result (reflectS S) (adjOrigin shape origin) 1 none bv true
        false x = _
    funext p
    unfold erosion_result
    rw [if_pos rfl, if_pos rfl]
    show step true (reflectS S) (adjOrigin shape origin) bv none x p =
      !(step false (reflectS S) (adjOrigin shape origin) (!bv) none
        (fun q => !(x q)) p)
    unfold step
    rw [if_pos (show maskVal none p = true from rfl)]
    exact kernelVal_dual (reflectS S) (adjOrigin shape origin) bv x p

end NdMorph

namespace NdMorph

/-! ### The boundary marking of the brute-force distance transform (C4) -/

lemma genstruct_full (d : ℕ) (k : Coord (fun _ : Fin d => 3)) :
    generate_binary_structure d d k = true := by
  unfold generate_binary_structure
  rw [decide_eq_true_eq]
  calc ∑ i, ((k i : ℤ) - 1).natAbs ≤ ∑ _i : Fin d, 1 :=
        Finset.sum_le_sum (fun i _ => by
          have hlt : (k i : ℕ) < 3 := (k i).isLt
          omega)
    _ = d := by simp
    _ ≤ max d 1 := le_max_left _ _

lemma dila_genstruct {d : ℕ} {dims : Fin d → ℕ} (x : Coord dims → Bool)
    (p : Coord dims) :
    dilateArr (generate_binary_structure d d) (fun _ => 0) false x p =
      decide (∃ k : Coord (fun _ : Fin d => 3),
        effVal x false (fun i => (p i : ℤ) + (k i : ℤ) - 1) = true) := by
  have h3 : (∏ _i : Fin d, (3 : ℕ)) ≠ 0 := by
    simp [Finset.prod_const]
  unfold dilateArr binary_dilation_core binary_erosion_core
  simp only [Bool.false_eq_true, if_false, if_neg h3]
  show erosion_result (reflectS (generate_binary_structure d d))
      (adjOrigin (fun _ => 3) (fun _ => 0)) 1 none false true false x p = _
  unfold erosion_result
  rw [if_pos rfl]
  show (if maskVal none p = true then
      kernelVal true (reflectS (generate_binary_structure d d))
        (adjOrigin (fun _ => 3) (fun _ => 0)) false x p
    else x p) = _
  rw [if_pos (show maskVal none p = true from rfl)]
  unfold kernelVal
  rw [if_pos rfl]
  apply decide_eq_decide.mpr
  have hpr : ∀ k : Coord (fun _ : Fin d => 3),
      probe (fun _ => 3) (adjOrigin (fun _ => 3) (fun _ => 0)) p k =
        fun i => (p i : ℤ) + (k i : ℤ) - 1 := by
    intro k
    funext i
    simp only [probe, adjOrigin]
    norm_num
  constructor
  · rintro ⟨k, _, he⟩
    rw [hpr k] at he
    exact ⟨k, he⟩
  · rintro ⟨k, he⟩
    refine ⟨k, ?_, ?_⟩
    · unfold reflectS
      exact genstruct_full d _
    · rw [hpr k]
      exact he

/-- Counterexample to C4 as stated: on the 1-D input `[0, 1]` the working
array marks voxel 0 (a background voxel next to the foreground) with `-1`,
while the claimed boundary set "foreground minus the erosion of the
foreground" contains voxel 1 instead. -/
theorem bf_boundary_counterexample :
    ¬ (∀ p, (bf_work x01w p = -1) ↔
      (x01w p = true ∧
        erodeArr (generate_binary_structure 1 1) zeroOrg false x01w p =
          false)) := by
  decide

/-- C4 (amended): the voxels marked `-1` in the working array handed by the
brute-force distance transform to the per-metric scan are exactly the
**background** voxels that have at least one fully-connected structural
neighbor that is foreground — equivalently the dilation of the foreground by
the fully-connected structuring element minus the foreground (out-of-bounds
neighbors counting as background). -/
theorem bf_boundary_marking {d : ℕ} {dims : Fin d → ℕ}
    (x : Coord dims → Bool) (p : Coord dims) :
    (bf_work x p = -1 ↔ (x p = false ∧
      ∃ k : Coord (fun _ : Fin d => 3),
        effVal x false (fun i => (p i : ℤ) + (k i : ℤ) - 1) = true)) ∧
    (bf_work x p = -1 ↔ (x p = false ∧
      dilateArr (generate_binary_structure d d) (fun _ => 0) false x p =
        true)) := by
  have hsplit : bf_work x p = -1 ↔ (x p = false ∧
      dilateArr (generate_binary_structure d d) (fun _ => 0) false x p =
        true) := by
    unfold bf_work
    rcases hx : x p with _ | _
    · rcases hdila : dilateArr (generate_binary_structure d d) (fun _ => 0)
          false x p with _ | _
      · simp
      · simp
    · have hdila : dilateArr (generate_binary_structure d d) (fun _ => 0)
          false x p = true := by
        rw [dila_genstruct, decide_eq_true_eq]
        refine ⟨fun _ => 1, ?_⟩
        have hc : (fun i => (p i : ℤ) + (((1 : Fin 3) : ℤ)) - 1) = toZ p := by
          funext i
          simp [toZ]
        rw [hc, effVal_toZ]
        exact hx
      rw [hdila]
      simp
  constructor
  · rw [hsplit]
    constructor
    · rintro ⟨h1, h2⟩
      rw [dila_genstruct, decide_eq_true_eq] at h2
      exact ⟨h1, h2⟩
    · rintro ⟨h1, h2⟩
      refine ⟨h1, ?_⟩
      rw [dila_genstruct, decide_eq_true_eq]
      exact h2
  · exact hsplit

end NdMorph

namespace NdMorph

/-! ### The empty-structure check (C8) -/

/-- The all-off (zero true entries) 3-cell structuring element. -/
def noTrueS : Coord sh3w → Bool := fun _ => false

/-- Counterexample to C8 as stated: a structuring element with zero true
entries (but a nonempty shape) is accepted — `_binary_erosion` only rejects
structuring elements whose shape has a zero product (no cells at all), so
erosion with the all-off structure succeeds (and returns the all-true
array, the conjunction over an empty neighbor set). -/
theorem empty_structure_counterexample :
    (∀ k, noTrueS k = false) ∧
    binary_erosion_core false noTrueS zeroOrg 1 none false
        false false false x01w ≠ .err .emptyStructure := by
  decide

/-- C8 (amended): for non-complex input, binary erosion and binary dilation
report the empty-structure error exactly when the structuring element has
zero **cells** (the product of its shape is zero); an all-false but nonempty
structuring element is accepted. -/
theorem empty_structure_error_iff {d : ℕ} {dims shape : Fin d → ℕ}
    (S : Coord shape → Bool) (origin : Fin d → ℤ) (iterations : ℤ)
    (mask : Option (Coord dims → Bool)) (outProvided bv brute : Bool)
    (x : Coord dims → Bool) :
    (binary_erosion_core false S origin iterations mask outProvided bv false
        brute x = .err .emptyStructure ↔ (∏ i, shape i) = 0) ∧
    (binary_dilation_core false S origin iterations mask outProvided bv
        brute x = .err .emptyStructure ↔ (∏ i, shape i) = 0) := by
  have key : ∀ (S2 : Coord shape → Bool) (origin2 : Fin d → ℤ)
      (invert : Bool),
      binary_erosion_core false S2 origin2 iterations mask outProvided bv
          invert brute x = .err .emptyStructure ↔ (∏ i, shape i) = 0 := by
    intro S2 origin2 invert
    unfold binary_erosion_core
    simp only [Bool.false_eq_true, if_false]
    by_cases hsh : (∏ i, shape i) = 0
    · rw [if_pos hsh]
      simp [hsh]
    · rw [if_neg hsh]
      constructor
      · intro hbad
        exact Res.noConfusion hbad
      · intro h0
        exact absurd h0 hsh
  exact ⟨key S origin false, key (reflectS S) (adjOrigin shape origin) true⟩

end NdMorph

namespace NdMorph

/-! ### Complex-valued input handling (C9) -/

/-- A concrete stand-in for the per-metric brute-force scan, used by the
counterexample instances. -/
def scan0 : ℕ → Option (Fin 1 → ℚ) → (Coord dims2w → ℤ) →
    ((Coord dims2w → ℚ) × (Coord dims2w → Coord dims2w)) :=
  fun _ _ _ => (fun _ => 0, fun _ _ => ⟨1, by norm_num [dims2w]⟩)

/-- Counterexample to C9 as stated: `distance_transform_bf` does **not**
reject complex-valued input — the Python entry point coerces the input with
`input != 0` (well-defined for complex arrays) and never tests for
complexness, so the call succeeds. -/
theorem complex_accepted_counterexample :
    distance_transform_bf scan0 true x01w "euclidean" none true false none
        none ≠ .err .unsupportedType := by
  decide

/-- C9 (amended): complex-valued input is rejected with the unsupported-type
error by the binary morphology operations (`_binary_erosion`, hence both
`binary_erosion` and `binary_dilation`), but the three distance transforms
accept complex input, coercing it through its nonzero pattern: their results
are completely independent of the complexness flag. -/
theorem complex_input_handling {d : ℕ} {dims shape : Fin d → ℕ}
    (S : Coord shape → Bool) (origin : Fin d → ℤ) (iterations : ℤ)
    (mask : Option (Coord dims → Bool)) (outProvided bv invert brute : Bool)
    (x : Coord dims → Bool)
    (scan : ℕ → Option (Fin d → ℚ) → (Coord dims → ℤ) →
      ((Coord dims → ℚ) × (Coord dims → Coord dims)))
    (metric : String) (sampling : Option (Fin d → ℚ)) (rd ri : Bool)
    (db : Option (Coord dims → ℚ)) (ib : Option (Fin d → Coord dims → ℤ))
    (op : (Coord (fun _ : Fin d => 3) → Bool) → (Coord dims → ℤ) →
      Option (Coord dims → Coord dims) →
      ((Coord dims → ℤ) × Option (Coord dims → Coord dims)))
    (cmetric : CDTMetric d) (db2 : Option (Coord dims → ℤ))
    (eft : (Coord dims → Bool) → Option (Fin d → ℝ) →
      (Fin d → Coord dims → ℤ))
    (sampling3 : Option (Fin d → ℝ)) (db3 : Option (Coord dims → ℝ)) :
    binary_erosion_core true S origin iterations mask outProvided bv invert
        brute x = .err .unsupportedType ∧
    binary_dilation_core true S origin iterations mask outProvided bv brute
        x = .err .unsupportedType ∧
    distance_transform_bf scan true x metric sampling rd ri db ib =
      distance_transform_bf scan false x metric sampling rd ri db ib ∧
    distance_transform_cdt op true x cmetric rd ri db2 ib =
      distance_transform_cdt op false x cmetric rd ri db2 ib ∧
    distance_transform_edt eft true x sampling3 rd ri db3 ib =
      distance_transform_edt eft false x sampling3 rd ri db3 ib :=
  ⟨rfl, rfl, rfl, rfl, rfl⟩

end NdMorph

namespace NdMorph

/-! ### The neither-distances-nor-indices configuration error (C7) -/

lemma bf_config_iff {d : ℕ} {dims : Fin d → ℕ}
    (scan : ℕ → Option (Fin d → ℚ) → (Coord dims → ℤ) →
      ((Coord dims → ℚ) × (Coord dims → Coord dims)))
    (cx : Bool) (x : Coord dims → Bool) (metric : String)
    (sampling : Option (Fin d → ℚ)) (rd ri : Bool)
    (db : Option (Coord dims → ℚ)) (ib : Option (Fin d → Coord dims → ℤ)) :
    distance_transform_bf scan cx x metric sampling rd ri db ib =
        .err .configError ↔ (rd = false ∧ ri = false) := by
  rcases rd with _ | _ <;> rcases ri with _ | _ <;>
    simp only [distance_transform_bf, Bool.not_true, Bool.not_false,
      Bool.and_true, Bool.and_false, Bool.and_self, if_true,
      Bool.false_eq_true, if_false] <;>
    try simp
  all_goals
    rcases hmc : bf_metric_code metric with _ | mc <;> simp

lemma cdt_config_iff {d : ℕ} {dims : Fin d → ℕ}
    (op : (Coord (fun _ : Fin d => 3) → Bool) → (Coord dims → ℤ) →
      Option (Coord dims → Coord dims) →
      ((Coord dims → ℤ) × Option (Coord dims → Coord dims)))
    (cx : Bool) (x : Coord dims → Bool) (metric : CDTMetric d) (rd ri : Bool)
    (db : Option (Coord dims → ℤ)) (ib : Option (Fin d → Coord dims → ℤ)) :
    distance_transform_cdt op cx x metric rd ri db ib = .err .configError ↔
      (rd = false ∧ ri = false) := by
  have hres : ∀ e, cdt_resolve metric = .err e → e = .metricSize := by
    rcases metric with _ | _ | ⟨sh, S⟩ <;> intro e he
    · exact Res.noConfusion he
    · exact Res.noConfusion he
    · have heq0 : cdt_resolve (CDTMetric.custom sh S) =
          (if h : ∀ i, sh i = 3 then
            Res.ok (fun k => S (fun i => Fin.cast (h i).symm (k i)))
          else Res.err MErr.metricSize) := rfl
      rw [heq0] at he
      split at he
      · exact Res.noConfusion he
      · cases he
        rfl
  rcases rd with _ | _ <;> rcases ri with _ | _ <;>
    simp only [distance_transform_cdt, Bool.not_true, Bool.not_false,
      Bool.and_true, Bool.and_false, Bool.and_self, if_true,
      Bool.false_eq_true, if_false] <;>
    try simp
  all_goals
    rcases hmc : cdt_resolve metric with e | s <;>
      first
      | simp [hres e hmc]
      | simp

lemma edt_config_iff {d : ℕ} {dims : Fin d → ℕ}
    (eft : (Coord dims → Bool) → Option (Fin d → ℝ) →
      (Fin d → Coord dims → ℤ))
    (cx : Bool) (x : Coord dims → Bool) (sampling : Option (Fin d → ℝ))
    (rd ri : Bool) (db : Option (Coord dims → ℝ))
    (ib : Option (Fin d → Coord dims → ℤ)) :
    distance_transform_edt eft cx x sampling rd ri db ib =
        .err .configError ↔ (rd = false ∧ ri = false) := by
  rcases rd with _ | _ <;> rcases ri with _ | _ <;>
    simp [distance_transform_edt]

/-- C7: each of the three distance-transform entry points reports the
configuration error (producing no output) exactly when both
`return_distances` and `return_indices` are false. -/
theorem distance_transform_config_error {d : ℕ} {dims : Fin d → ℕ}
    (scan : ℕ → Option (Fin d → ℚ) → (Coord dims → ℤ) →
      ((Coord dims → ℚ) × (Coord dims → Coord dims)))
    (op : (Coord (fun _ : Fin d => 3) → Bool) → (Coord dims → ℤ) →
      Option (Coord dims → Coord dims) →
      ((Coord dims → ℤ) × Option (Coord dims → Coord dims)))
    (eft : (Coord dims → Bool) → Option (Fin d → ℝ) →
      (Fin d → Coord dims → ℤ))
    (cx : Bool) (x : Coord dims → Bool) (metric : String)
    (cmetric : CDTMetric d) (sampling : Option (Fin d → ℚ))
    (sampling3 : Option (Fin d → ℝ)) (rd ri : Bool)
    (db : Option (Coord dims → ℚ)) (db2 : Option (Coord dims → ℤ))
    (db3 : Option (Coord dims → ℝ)) (ib : Option (Fin d → Coord dims → ℤ)) :
    (distance_transform_bf scan cx x metric sampling rd ri db ib =
        .err .configError ↔ (rd = false ∧ ri = false)) ∧
    (distance_transform_cdt op cx x cmetric rd ri db2 ib =
        .err .configError ↔ (rd = false ∧ ri = false)) ∧
    (distance_transform_edt eft cx x sampling3 rd ri db3 ib =
        .err .configError ↔ (rd = false ∧ ri = false)) :=
  ⟨bf_config_iff scan cx x metric sampling rd ri db ib,
    cdt_config_iff op cx x cmetric rd ri db2 ib,
    edt_config_iff eft cx x sampling3 rd ri db3 ib⟩

end NdMorph

namespace NdMorph

/-! ### The chamfer transform's sweep structure (C5) -/

/-- C5: whenever the chamfer metric resolves to a structuring element `s`,
the distance output of `distance_transform_cdt` (both the returned array and
a caller-supplied distances buffer) is obtained by initializing background
voxels to `0` and foreground voxels to the sentinel `-1`, invoking the
forward+backward sweep primitive, reversing all axes, invoking it a second
time, and reversing again. -/
theorem cdt_two_reversed_sweeps {d : ℕ} {dims : Fin d → ℕ}
    (op : (Coord (fun _ : Fin d => 3) → Bool) → (Coord dims → ℤ) →
      Option (Coord dims → Coord dims) →
      ((Coord dims → ℤ) × Option (Coord dims → Coord dims)))
    (cx : Bool) (x : Coord dims → Bool) (metric : CDTMetric d) (ri : Bool)
    (ib : Option (Fin d → Coord dims → ℤ))
    (s : Coord (fun _ : Fin d => 3) → Bool)
    (hres : cdt_resolve metric = .ok s) :
    (resOr (distance_transform_cdt op cx x metric true ri none ib)
        ([], none, none)).1.head? =
      some (Sum.inl (revArr ((op s
        (revArr ((op s (fun p => if x p then -1 else 0)
          (if ri then some (fun p => p) else none)).1))
        (((op s (fun p => if x p then -1 else 0)
          (if ri then some (fun p => p) else none)).2).map revArr)).1))) ∧
    (∀ b, (resOr (distance_transform_cdt op cx x metric true ri (some b) ib)
        ([], none, none)).2.1 =
      some (revArr ((op s
        (revArr ((op s (fun p => if x p then -1 else 0)
          (if ri then some (fun p => p) else none)).1))
        (((op s (fun p => if x p then -1 else 0)
          (if ri then some (fun p => p) else none)).2).map revArr)).1))) := by
  constructor
  · unfold distance_transform_cdt
    rw [hres]
    rcases ri with _ | _ <;> rcases ib with _ | _ <;> rfl
  · intro b
    unfold distance_transform_cdt
    rw [hres]
    rcases ri with _ | _ <;> rcases ib with _ | _ <;> rfl

/-- Witness for C5 at a concrete instance: the chessboard metric in one
dimension with the identity sweep primitive. -/
theorem cdt_two_reversed_sweeps_witness :
    (cdt_resolve (CDTMetric.chessboard : CDTMetric 1) =
      .ok (generate_binary_structure 1 1)) ∧
    ((resOr (distance_transform_cdt
        (fun _ dt (ft : Option (Coord dims2w → Coord dims2w)) => (dt, ft)) false x01w CDTMetric.chessboard true false
        none none) ([], none, none)).1.head? =
      some (Sum.inl (revArr ((fun (dt : Coord dims2w → ℤ)
          (ft : Option (Coord dims2w → Coord dims2w)) => (dt, ft))
        (revArr ((fun (dt : Coord dims2w → ℤ)
            (ft : Option (Coord dims2w → Coord dims2w)) => (dt, ft))
          (fun p => if x01w p then -1 else 0)
          (if false then some (fun p => p) else none)).1)
        (((fun (dt : Coord dims2w → ℤ)
            (ft : Option (Coord dims2w → Coord dims2w)) => (dt, ft))
          (fun p => if x01w p then -1 else 0)
          (if false then some (fun p => p) else none)).2.map revArr)).1)) ∧
    (∀ b, (resOr (distance_transform_cdt
        (fun _ dt (ft : Option (Coord dims2w → Coord dims2w)) => (dt, ft)) false x01w CDTMetric.chessboard true false
        (some b) none) ([], none, none)).2.1 =
      some (revArr ((fun (dt : Coord dims2w → ℤ)
          (ft : Option (Coord dims2w → Coord dims2w)) => (dt, ft))
        (revArr ((fun (dt : Coord dims2w → ℤ)
            (ft : Option (Coord dims2w → Coord dims2w)) => (dt, ft))
          (fun p => if x01w p then -1 else 0)
          (if false then some (fun p => p) else none)).1)
        (((fun (dt : Coord dims2w → ℤ)
            (ft : Option (Coord dims2w → Coord dims2w)) => (dt, ft))
          (fun p => if x01w p then -1 else 0)
          (if false then some (fun p => p) else none)).2.map revArr)).1))) :=
  ⟨by decide,
    cdt_two_reversed_sweeps (fun _ dt ft => (dt, ft)) false x01w
      CDTMetric.chessboard false none (generate_binary_structure 1 1)
      (by decide)⟩

end NdMorph

namespace NdMorph

/-! ### The exact Euclidean distance formula (C6) -/

/-- The per-axis scale factor of `distance_transform_edt`: the sampling
entry when a sampling is given, unity otherwise. -/
noncomputable def edtScale {d : ℕ} (sampling : Option (Fin d → ℝ))
    (i : Fin d) : ℝ :=
  match sampling with
  | some s => s i
  | none => 1

lemma edt_dt_formula {d : ℕ} {dims : Fin d → ℕ}
    (ft : Fin d → Coord dims → ℤ) (sampling : Option (Fin d → ℝ))
    (p : Coord dims) :
    edt_dt ft sampling p = Real.sqrt (∑ i,
      (edtScale sampling i * (((ft i p : ℤ) : ℝ) - ((p i : ℕ) : ℝ))) ^ 2) := by
  rcases sampling with _ | samp <;>
    simp only [edt_dt, edtScale] <;>
    congr 1 <;>
    refine Finset.sum_congr rfl (fun i _ => ?_) <;>
    ring

/-- C6: with distances requested, the distance output of
`distance_transform_edt` (both the returned array and a caller-supplied
distances buffer) is, at every voxel `p`, the square root of the sum over
the axes of `(sampling[i] * (feature[i][p] - p[i]))²`, where `feature` is
the feature transform computed by the same call and the sampling is unity
per axis when none is given. -/
theorem edt_distance_formula {d : ℕ} {dims : Fin d → ℕ}
    (eft : (Coord dims → Bool) → Option (Fin d → ℝ) →
      (Fin d → Coord dims → ℤ))
    (cx : Bool) (x : Coord dims → Bool) (sampling : Option (Fin d → ℝ))
    (ri : Bool) (ib : Option (Fin d → Coord dims → ℤ)) :
    ((resOr (distance_transform_edt eft cx x sampling true ri none ib)
        ([], none, none)).1.head? =
      some (Sum.inl (fun p => Real.sqrt (∑ i,
        (edtScale sampling i *
          (((eft x sampling i p : ℤ) : ℝ) - ((p i : ℕ) : ℝ))) ^ 2)))) ∧
    (∀ b, (resOr (distance_transform_edt eft cx x sampling true ri (some b)
        ib) ([], none, none)).2.1 =
      some (fun p => Real.sqrt (∑ i,
        (edtScale sampling i *
          (((eft x sampling i p : ℤ) : ℝ) - ((p i : ℕ) : ℝ))) ^ 2))) := by
  have hdt : edt_dt (eft x sampling) sampling =
      (fun p => Real.sqrt (∑ i, (edtScale sampling i *
        (((eft x sampling i p : ℤ) : ℝ) - ((p i : ℕ) : ℝ))) ^ 2)) :=
    funext fun p => edt_dt_formula (eft x sampling) sampling p
  constructor
  · calc (resOr (distance_transform_edt eft cx x sampling true ri none ib)
          ([], none, none)).1.head? =
        some (Sum.inl (edt_dt (eft x sampling) sampling)) := rfl
      _ = _ := by rw [hdt]
  · intro b
    calc (resOr (distance_transform_edt eft cx x sampling true ri (some b)
          ib) ([], none, none)).2.1 =
        some (edt_dt (eft x sampling) sampling) := rfl
      _ = _ := by rw [hdt]

end NdMorph

namespace NdMorph

/-! ### In-place output buffers (C10) -/

/-- The 1-D input `[1, 0]` (foreground voxel 0, background voxel 1). -/
def x10w : Coord dims2w → Bool := fun p => decide ((p 0 : ℕ) = 0)

/-- C10 at the failing input: `distance_transform_bf` with
`return_indices=True` and a caller-supplied indices buffer.  Without the
buffer the call returns the feature-index array gathered from the
coordinate grid (here the constant coordinate `1`); with a zero-filled
caller buffer the gather loop reads the buffer's own prior contents
(`tmp2 = indices; rtmp = ravel(tmp2[ii, ...])[ft]`), so the buffer ends up
all zeros — not the feature transform its docstring promises — while the
returned value is `None` (the buffer is omitted from the result list). -/
theorem bf_inplace_indices_bug :
    (resOr (distance_transform_bf scan0 false x10w "euclidean" none false
        true none none) ([], none, none)).1 =
      [Sum.inr (fun _ _ => (1 : ℤ))] ∧
    (resOr (distance_transform_bf scan0 false x10w "euclidean" none false
        true none (some (fun _ _ => (0 : ℤ)))) ([], none, none)).1 = [] ∧
    (resOr (distance_transform_bf scan0 false x10w "euclidean" none false
        true none (some (fun _ _ => (0 : ℤ)))) ([], none, none)).2.2 =
      some (fun _ _ => (0 : ℤ)) ∧
    ((fun (_ : Fin 1) (_ : Coord dims2w) => (0 : ℤ)) ≠
      fun _ _ => (1 : ℤ)) := by
  decide

end NdMorph
